import Mathlib

/-!
Verification of the go-migrate migration engine against its specification.

The embedding models `src/unnamed/part_004` (package `migrate`: the
`Migrator.Migrate` orchestrator, `checkIfMigrationsAreAltered`,
`handleMigration`, `upsertMigration`, `getMigrationsKnownToDb`,
`findMigrationByName`, `hashFile`) together with the behaviour of its
external collaborators that the code relies on:

* `crypto/sha256` is embedded as a full executable SHA-256 over byte lists;
* `fmt.Appendf(nil, "%v", value)` on a byte slice is embedded as
  `goFormatBytes` (Go renders a `[]byte` as the bracketed decimal list,
  e.g. `[104 101]`);
* `fs.WalkDir` over a flat embedded file tree is embedded as a traversal of
  the artifact list sorted lexicographically by name (WalkDir walks the tree
  in lexical order); directory entries carry no content and are skipped by
  the source, so the model holds only the files;
* `database/sql` transactions are embedded as explicit state passing: the
  durable ledger (the `migrations` table) is a list of rows; a run mutates a
  transaction-local copy; `Commit` publishes it, every other exit keeps the
  durable ledger (the deferred `tx.Rollback()`);
* each fallible database/driver interaction is driven by an `Env` of
  failure oracles, so every error path of the source is reachable.
-/

namespace GoMigrate

/-! ### SHA-256 (embedding of `crypto/sha256` as used by `hashFile`) -/

/-- The word modulus of SHA-256 arithmetic, 2^32. -/
def w32 : Nat := 4294967296

/-- Addition modulo 2^32. -/
def add32 (a b : Nat) : Nat := (a + b) % w32

/-- Right rotation within 32 bits (for 0 < n < 32 and x < 2^32). -/
def rotr32 (n x : Nat) : Nat := ((x >>> n) ||| ((x <<< (32 - n)) % w32))

/-- Bitwise complement within 32 bits. -/
def not32 (x : Nat) : Nat := 4294967295 - x

/-- SHA-256 choice function. -/
def chFn (e f g : Nat) : Nat := (e &&& f) ^^^ (not32 e &&& g)

/-- SHA-256 majority function. -/
def majFn (a b c : Nat) : Nat := (a &&& b) ^^^ (a &&& c) ^^^ (b &&& c)

/-- SHA-256 big sigma 0. -/
def bigSigma0 (x : Nat) : Nat := rotr32 2 x ^^^ rotr32 13 x ^^^ rotr32 22 x

/-- SHA-256 big sigma 1. -/
def bigSigma1 (x : Nat) : Nat := rotr32 6 x ^^^ rotr32 11 x ^^^ rotr32 25 x

/-- SHA-256 small sigma 0. -/
def smallSigma0 (x : Nat) : Nat := rotr32 7 x ^^^ rotr32 18 x ^^^ (x >>> 3)

/-- SHA-256 small sigma 1. -/
def smallSigma1 (x : Nat) : Nat := rotr32 17 x ^^^ rotr32 19 x ^^^ (x >>> 10)

/-- The 64 SHA-256 round constants. -/
def sha256K : List Nat :=
  [1116352408, 1899447441, 3049323471, 3921009573, 961987163, 1508970993,
   2453635748, 2870763221, 3624381080, 310598401, 607225278, 1426881987,
   1925078388, 2162078206, 2614888103, 3248222580, 3835390401, 4022224774,
   264347078, 604807628, 770255983, 1249150122, 1555081692, 1996064986,
   2554220882, 2821834349, 2952996808, 3210313671, 3336571891, 3584528711,
   113926993, 338241895, 666307205, 773529912, 1294757372, 1396182291,
   1695183700, 1986661051, 2177026350, 2456956037, 2730485921, 2820302411,
   3259730800, 3345764771, 3516065817, 3600352804, 4094571909, 275423344,
   430227734, 506948616, 659060556, 883997877, 958139571, 1322822218,
   1537002063, 1747873779, 1955562222, 2024104815, 2227730452, 2361852424,
   2428436474, 2756734187, 3204031479, 3329325298]

/-- The SHA-256 initial hash state. -/
def sha256H0 : List Nat :=
  [1779033703, 3144134277, 1013904242, 2773480762,
   1359893119, 2600822924, 528734635, 1541459225]

/-- Big-endian 8-byte encoding of a natural number. -/
def be64 (n : Nat) : List Nat :=
  [(n >>> 56) % 256, (n >>> 48) % 256, (n >>> 40) % 256, (n >>> 32) % 256,
   (n >>> 24) % 256, (n >>> 16) % 256, (n >>> 8) % 256, n % 256]

/-- SHA-256 padding: append 0x80, zeros, and the 64-bit bit length, reaching
a multiple of 64 bytes. -/
def sha256pad (msg : List Nat) : List Nat :=
  let z := (64 - ((msg.length + 9) % 64)) % 64
  msg ++ 128 :: List.replicate z 0 ++ be64 (msg.length * 8)

/-- Group a byte list into big-endian 32-bit words. -/
def toWords : List Nat → List Nat
  | b0 :: b1 :: b2 :: b3 :: rest =>
      ((b0 % 256) * 16777216 + (b1 % 256) * 65536 + (b2 % 256) * 256 + b3 % 256)
        :: toWords rest
  | _ => []

/-- Extend a 16-word block by `n` message-schedule words. -/
def schedExtend : Nat → List Nat → List Nat
  | 0, w => w
  | n + 1, w =>
      let i := w.length
      let x := add32 (add32 (smallSigma1 (w.getD (i - 2) 0)) (w.getD (i - 7) 0))
                     (add32 (smallSigma0 (w.getD (i - 15) 0)) (w.getD (i - 16) 0))
      schedExtend n (w ++ [x])

/-- One SHA-256 compression round on the 8-word working state. -/
def compressRound (st : List Nat) (kw : Nat × Nat) : List Nat :=
  match st with
  | [a, b, c, d, e, f, g, h] =>
      let t1 := add32 (add32 h (bigSigma1 e)) (add32 (chFn e f g) (add32 kw.1 kw.2))
      let t2 := add32 (bigSigma0 a) (majFn a b c)
      [add32 t1 t2, a, b, c, add32 d t1, e, f, g]
  | other => other

/-- Compress one 64-byte block into the running hash state. -/
def sha256compress (hs : List Nat) (block : List Nat) : List Nat :=
  let w := schedExtend 48 (toWords block)
  let st := (sha256K.zip w).foldl compressRound hs
  (hs.zip st).map (fun p => add32 p.1 p.2)

/-- Split a byte list into 64-byte chunks (fuel-driven). -/
def chunks64 : Nat → List Nat → List (List Nat)
  | 0, _ => []
  | _, [] => []
  | fuel + 1, l => l.take 64 :: chunks64 fuel (l.drop 64)

/-- The eight 32-bit words of the SHA-256 digest of a byte list. -/
def sha256words (msg : List Nat) : List Nat :=
  let padded := sha256pad msg
  (chunks64 padded.length padded).foldl sha256compress sha256H0

/-- Lower-case hex digit. -/
def hexDigit (n : Nat) : Char :=
  if n < 10 then Char.ofNat (48 + n) else Char.ofNat (87 + n)

/-- Eight-hex-digit rendering of a 32-bit word. -/
def word2hex (x : Nat) : List Char :=
  [hexDigit ((x >>> 28) % 16), hexDigit ((x >>> 24) % 16),
   hexDigit ((x >>> 20) % 16), hexDigit ((x >>> 16) % 16),
   hexDigit ((x >>> 12) % 16), hexDigit ((x >>> 8) % 16),
   hexDigit ((x >>> 4) % 16), hexDigit (x % 16)]

/-- Hex-encoded SHA-256 digest of a byte list: the `%x` rendering of
`sha.Sum(nil)`. This is the spec's `hash(content: bytes) -> digest`. -/
def sha256hex (msg : List Nat) : String :=
  ⟨((sha256words msg).map word2hex).flatten⟩

/-! ### `hashFile` and the Go `%v` rendering it feeds to SHA-256 -/

/-- The byte values of a string (all relevant strings are ASCII). -/
def strBytes (s : String) : List Nat := s.data.map Char.toNat

/-- Embedding of `fmt.Appendf(nil, "%v", value)` for a `[]byte` value: Go
renders a byte slice as the space-separated decimal values in brackets,
e.g. `[104 101]`, and `[]` for the empty slice. -/
def goFormatBytes (bs : List Nat) : String :=
  "[" ++ String.intercalate " " (bs.map (fun b => toString b)) ++ "]"

/-- Embedding of `hashFile` (`src/unnamed/part_004:220`): SHA-256 over the
bytes of the `%v` rendering of the value, hex encoded. -/
def hashFile (value : List Nat) : String :=
  sha256hex (strBytes (goFormatBytes value))

/-! ### Data model: ledger rows and artifacts -/

/-- A row of the `migrations` ledger table (`migrationRow` in the source). -/
structure migrationRow where
  MigrationName : String
  MigrationHash : String
  IsApplied : Bool
deriving Repr, DecidableEq

/-- A migration file of the artifact source: a name and raw byte content.
The embedded tree is modelled flat, so the name is the walked path. -/
structure Artifact where
  name : String
  content : List Nat
deriving Repr, DecidableEq

/-- The zero `migrationRow` value returned by the source on a miss. -/
def zeroRow : migrationRow := ⟨"", "", false⟩

/-- Embedding of `findMigrationByName`: first row with the given name,
with a found flag; the zero value on a miss. -/
def findMigrationByName : List migrationRow → String → migrationRow × Bool
  | [], _ => (zeroRow, false)
  | m :: rest, name =>
      if m.MigrationName = name then (m, true) else findMigrationByName rest name

/-- Embedding of `upsertMigration`: `INSERT ... ON CONFLICT(migration_name)
DO UPDATE` — overwrite the row with the same name, else append. -/
def upsertMigration (ledger : List migrationRow) (migration : migrationRow) :
    List migrationRow :=
  if ledger.any (fun m => m.MigrationName = migration.MigrationName) then
    ledger.map (fun m =>
      if m.MigrationName = migration.MigrationName then migration else m)
  else ledger ++ [migration]

/-- Byte-wise lexicographic comparison of character lists: the ordering Go
(and `fs.WalkDir`) uses on the names occurring here. -/
def charListLe : List Char → List Char → Bool
  | [], _ => true
  | _ :: _, [] => false
  | a :: as, b :: bs =>
      if a.toNat < b.toNat then true
      else if b.toNat < a.toNat then false
      else charListLe as bs

/-- Strict byte-wise lexicographic comparison of character lists. -/
def charListLt : List Char → List Char → Bool
  | [], [] => false
  | [], _ :: _ => true
  | _ :: _, [] => false
  | a :: as, b :: bs =>
      if a.toNat < b.toNat then true
      else if b.toNat < a.toNat then false
      else charListLt as bs

/-- Lexicographic comparison of strings. -/
def strLe (a b : String) : Bool := charListLe a.data b.data

/-- Strict lexicographic comparison of strings. -/
def strLt (a b : String) : Bool := charListLt a.data b.data

/-- Insert an artifact into a name-sorted list, keeping it sorted. -/
def insertByName (a : Artifact) : List Artifact → List Artifact
  | [] => [a]
  | b :: rest =>
      if strLe a.name b.name then a :: b :: rest else b :: insertByName a rest

/-- The lexical visiting order of `fs.WalkDir` over the flat artifact tree:
the artifact list sorted by name. -/
def sortByName : List Artifact → List Artifact
  | [] => []
  | a :: rest => insertByName a (sortByName rest)

/-! ### The failure environment (oracles for the fallible collaborators) -/

/-- Failure oracles for every fallible database interaction of one run.
`execSQL` maps a migration's byte content to `none` (success) or
`some dbErr` (the underlying database error text). -/
structure Env where
  connOk : Bool
  beginOk : Bool
  createTableOk : Bool
  checkQueryOk : Bool
  applyQueryOk : Bool
  execSQL : List Nat → Option String
  upsertOk : String → Bool
  commitOk : Bool

/-! ### Integrity check and apply walk -/

/-- Embedding of the walk with `checkIfMigrationsAreAltered` over the
artifacts in visiting order: `some name` is the first matched artifact whose
recomputed hash differs from the stored hash (the walk error naming it),
`none` means the walk completed. -/
def checkIfMigrationsAreAltered (knownMigrations : List migrationRow) :
    List Artifact → Option String
  | [] => none
  | a :: rest =>
      let found := findMigrationByName knownMigrations a.name
      if found.2 then
        if hashFile a.content = found.1.MigrationHash then
          checkIfMigrationsAreAltered knownMigrations rest
        else some a.name
      else checkIfMigrationsAreAltered knownMigrations rest

/-- Errors of the apply walk (`handleMigration`'s closure), as wrapped by
`Migrate` into its `walk migrations` error. -/
inductive walkErr where
  | getKnownMigrations
  | migrationFailed (name : String) (dbErr : String)
  | upsertFailed (name : String)
deriving Repr, DecidableEq

/-- Embedding of the walk with `handleMigration` over the artifacts in
visiting order. State: the transaction-local ledger and the chronological
list of artifact names whose content was executed (`tx.Exec` of the file's
bytes, including a failing execution). Skips an artifact whose known record
has `IsApplied`; on execution failure returns `migrationFailed` carrying the
artifact name and the underlying database error. -/
def handleMigration (env : Env) (knownMigrations : List migrationRow) :
    List Artifact → List migrationRow → List String →
      Except walkErr (List migrationRow) × List String
  | [], tx, execd => (Except.ok tx, execd)
  | a :: rest, tx, execd =>
      let found := findMigrationByName knownMigrations a.name
      if found.2 && found.1.IsApplied then
        handleMigration env knownMigrations rest tx execd
      else
        match env.execSQL a.content with
        | some dbErr =>
            (Except.error (walkErr.migrationFailed a.name dbErr), execd ++ [a.name])
        | none =>
            if env.upsertOk a.name then
              handleMigration env knownMigrations rest
                (upsertMigration tx ⟨a.name, hashFile a.content, true⟩)
                (execd ++ [a.name])
            else (Except.error (walkErr.upsertFailed a.name), execd ++ [a.name])

/-! ### The orchestrator -/

/-- The error taxonomy of `Migrator.Migrate` (`src/unnamed/part_004:50`).
Any error from the integrity-check walk is returned as the bare
`migrationFileChanged` sentinel (the source discards the walk's error);
apply-walk errors are wrapped, preserving their cause. -/
inductive MigrateErr where
  | getConnection
  | beginTransaction
  | createMigrationsTable
  | migrationFileChanged
  | walkMigrations (cause : walkErr)
  | commitTransaction
deriving Repr, DecidableEq

deriving instance DecidableEq for Except

/-- Outcome of one `Migrate` run: the returned error or success, the durable
ledger after the run (unchanged unless the transaction committed), and the
chronological names of executed artifacts. -/
structure MigrateResult where
  result : Except MigrateErr Unit
  ledger : List migrationRow
  executed : List String
deriving Repr

/-- Embedding of `Migrator.Migrate`: connection, transaction, ledger-table
creation, integrity-check walk (any failure → the bare
`migrationFileChanged` sentinel), apply walk (failure wrapped), commit.
The durable ledger is replaced only on a successful commit; every other
path keeps it (the deferred `tx.Rollback()`). -/
def Migrate (env : Env) (migrations : List Artifact) (ledger : List migrationRow) :
    MigrateResult :=
  if env.connOk = false then ⟨Except.error MigrateErr.getConnection, ledger, []⟩
  else if env.beginOk = false then ⟨Except.error MigrateErr.beginTransaction, ledger, []⟩
  else if env.createTableOk = false then
    ⟨Except.error MigrateErr.createMigrationsTable, ledger, []⟩
  else if env.checkQueryOk = false then
    ⟨Except.error MigrateErr.migrationFileChanged, ledger, []⟩
  else
    match checkIfMigrationsAreAltered ledger (sortByName migrations) with
    | some _ => ⟨Except.error MigrateErr.migrationFileChanged, ledger, []⟩
    | none =>
        if env.applyQueryOk = false then
          ⟨Except.error (MigrateErr.walkMigrations walkErr.getKnownMigrations), ledger, []⟩
        else
          match handleMigration env ledger (sortByName migrations) ledger [] with
          | (Except.error e, execd) =>
              ⟨Except.error (MigrateErr.walkMigrations e), ledger, execd⟩
          | (Except.ok txLedger, execd) =>
              if env.commitOk = false then
                ⟨Except.error MigrateErr.commitTransaction, ledger, execd⟩
              else ⟨Except.ok (), txLedger, execd⟩

/-- An all-success environment (used by concrete witnesses). -/
def envOk : Env := ⟨true, true, true, true, true, fun _ => none, fun _ => true, true⟩

/-- An environment whose only failure is the ledger read inside the
integrity-check walk (`getMigrationsKnownToDb` called by
`checkIfMigrationsAreAltered`). -/
def envCheckQueryFail : Env :=
  ⟨true, true, true, false, true, fun _ => none, fun _ => true, true⟩

/-- An environment in which executing the content `[104]` fails with the
database error `"boom"` and everything else succeeds. -/
def envExecFail : Env :=
  ⟨true, true, true, true, true,
    fun c => if c = [104] then some "boom" else none, fun _ => true, true⟩

/-- The ledger row recorded for an executed artifact. -/
def artRow (a : Artifact) : migrationRow := ⟨a.name, hashFile a.content, true⟩

/-! ### The lexicographic order -/

theorem charListLe_refl : ∀ l : List Char, charListLe l l = true
  | [] => rfl
  | a :: as => by
    simp only [charListLe]
    rw [if_neg (by omega), if_neg (by omega)]
    exact charListLe_refl as

theorem charListLe_total : ∀ l1 l2 : List Char,
    charListLe l1 l2 = true ∨ charListLe l2 l1 = true
  | [], _ => Or.inl rfl
  | _ :: _, [] => Or.inr rfl
  | a :: as, b :: bs => by
    simp only [charListLe]
    rcases Nat.lt_trichotomy a.toNat b.toNat with h | h | h
    · exact Or.inl (by simp [h])
    · rcases charListLe_total as bs with hh | hh
      · refine Or.inl ?_
        rw [if_neg (by omega), if_neg (by omega)]
        exact hh
      · refine Or.inr ?_
        rw [if_neg (by omega), if_neg (by omega)]
        exact hh
    · exact Or.inr (by simp [h])

theorem charListLe_trans : ∀ l1 l2 l3 : List Char,
    charListLe l1 l2 = true → charListLe l2 l3 = true → charListLe l1 l3 = true
  | [], _, _, _, _ => rfl
  | _ :: _, [], _, h12, _ => by simp [charListLe] at h12
  | _ :: _, _ :: _, [], _, h23 => by simp [charListLe] at h23
  | a :: as, b :: bs, c :: cs, h12, h23 => by
    simp only [charListLe] at h12 h23 ⊢
    rcases Nat.lt_trichotomy a.toNat b.toNat with hab | hab | hab
    · rcases Nat.lt_trichotomy b.toNat c.toNat with hbc | hbc | hbc
      · simp [Nat.lt_trans hab hbc]
      · simp [hbc ▸ hab]
      · rw [if_neg (by omega), if_pos hbc] at h23
        exact absurd h23 (by simp)
    · rcases Nat.lt_trichotomy b.toNat c.toNat with hbc | hbc | hbc
      · simp [hab.symm ▸ hbc]
      · rw [if_neg (by omega), if_neg (by omega)] at h12 h23 ⊢
        exact charListLe_trans as bs cs h12 h23
      · rw [if_neg (by omega), if_pos hbc] at h23
        exact absurd h23 (by simp)
    · rw [if_neg (by omega), if_pos hab] at h12
      exact absurd h12 (by simp)

theorem charListLt_of_le_of_ne : ∀ l1 l2 : List Char,
    charListLe l1 l2 = true → l1 ≠ l2 → charListLt l1 l2 = true
  | [], [], _, hne => absurd rfl hne
  | [], _ :: _, _, _ => rfl
  | _ :: _, [], hle, _ => by simp [charListLe] at hle
  | a :: as, b :: bs, hle, hne => by
    simp only [charListLe] at hle
    simp only [charListLt]
    rcases Nat.lt_trichotomy a.toNat b.toNat with h | h | h
    · simp [h]
    · rw [if_neg (by omega), if_neg (by omega)] at hle ⊢
      refine charListLt_of_le_of_ne as bs hle ?_
      intro hh
      refine hne ?_
      have hab : a = b := by
        have h32 : a.val = b.val := UInt32.toNat.inj h
        exact Char.ext h32
      rw [hab, hh]
    · rw [if_neg (by omega), if_pos h] at hle
      exact absurd hle (by simp)

theorem strLe_refl (a : String) : strLe a a = true := charListLe_refl a.data

theorem strLe_total (a b : String) : strLe a b = true ∨ strLe b a = true :=
  charListLe_total a.data b.data

theorem strLe_trans {a b c : String} (h1 : strLe a b = true)
    (h2 : strLe b c = true) : strLe a c = true :=
  charListLe_trans a.data b.data c.data h1 h2

theorem strLt_of_le_of_ne {a b : String} (hle : strLe a b = true)
    (hne : a ≠ b) : strLt a b = true := by
  refine charListLt_of_le_of_ne a.data b.data hle ?_
  intro h
  exact hne (by cases a; cases b; exact congrArg String.mk h)

/-! ### Lemmas about `findMigrationByName` -/

theorem findMigrationByName_eq_of_mem (ledger : List migrationRow) (row : migrationRow)
    (hnd : (ledger.map migrationRow.MigrationName).Nodup) (hmem : row ∈ ledger) :
    findMigrationByName ledger row.MigrationName = (row, true) := by
  induction ledger with
  | nil => cases hmem
  | cons m rest ih =>
    rw [List.map_cons, List.nodup_cons] at hnd
    rcases List.mem_cons.mp hmem with h | h
    · subst h
      simp [findMigrationByName]
    · have hne : m.MigrationName ≠ row.MigrationName := by
        intro he
        exact hnd.1 (he ▸ List.mem_map_of_mem migrationRow.MigrationName h)
      simp only [findMigrationByName, if_neg hne]
      exact ih hnd.2 h

theorem findMigrationByName_found (ledger : List migrationRow) (name : String)
    (h : (findMigrationByName ledger name).2 = true) :
    (findMigrationByName ledger name).1 ∈ ledger ∧
      (findMigrationByName ledger name).1.MigrationName = name := by
  induction ledger with
  | nil => simp [findMigrationByName, zeroRow] at h
  | cons m rest ih =>
    by_cases he : m.MigrationName = name
    · simp only [findMigrationByName, if_pos he]
      exact ⟨List.mem_cons_self m rest, he⟩
    · simp only [findMigrationByName, if_neg he] at h ⊢
      exact ⟨List.mem_cons_of_mem m (ih h).1, (ih h).2⟩

/-! ### Lemmas about `sortByName` (the walk order) -/

theorem insertByName_perm (a : Artifact) (l : List Artifact) :
    List.Perm (insertByName a l) (a :: l) := by
  induction l with
  | nil => exact List.Perm.refl _
  | cons b rest ih =>
    simp only [insertByName]
    split
    · exact List.Perm.refl _
    · exact List.Perm.trans (List.Perm.cons b ih) (List.Perm.swap a b rest)

theorem sortByName_perm (l : List Artifact) : List.Perm (sortByName l) l := by
  induction l with
  | nil => exact List.Perm.refl _
  | cons a rest ih =>
    exact List.Perm.trans (insertByName_perm a (sortByName rest)) (List.Perm.cons a ih)

theorem mem_sortByName {a : Artifact} {l : List Artifact} :
    a ∈ sortByName l ↔ a ∈ l := (sortByName_perm l).mem_iff

theorem insertByName_pairwise (a : Artifact) (l : List Artifact)
    (hl : l.Pairwise (fun x y => strLe x.name y.name = true)) :
    (insertByName a l).Pairwise (fun x y => strLe x.name y.name = true) := by
  induction l with
  | nil => simp [insertByName]
  | cons b rest ih =>
    rw [List.pairwise_cons] at hl
    simp only [insertByName]
    split
    · rename_i hab
      rw [List.pairwise_cons]
      refine ⟨?_, List.pairwise_cons.mpr hl⟩
      intro x hx
      rcases List.mem_cons.mp hx with h | h
      · exact h ▸ hab
      · exact strLe_trans hab (hl.1 x h)
    · rename_i hab
      have hba : strLe b.name a.name = true := by
        rcases strLe_total a.name b.name with h' | h'
        · exact absurd h' hab
        · exact h'
      rw [List.pairwise_cons]
      refine ⟨?_, ih hl.2⟩
      intro x hx
      rcases List.mem_cons.mp ((insertByName_perm a rest).mem_iff.mp hx) with h | h
      · exact h ▸ hba
      · exact hl.1 x h

theorem sortByName_pairwise (l : List Artifact) :
    (sortByName l).Pairwise (fun x y => strLe x.name y.name = true) := by
  induction l with
  | nil => simp [sortByName]
  | cons a rest ih => exact insertByName_pairwise a (sortByName rest) ih

theorem sortByName_names_nodup {l : List Artifact}
    (h : (l.map Artifact.name).Nodup) :
    ((sortByName l).map Artifact.name).Nodup :=
  (((sortByName_perm l).map Artifact.name).nodup_iff).mpr h

/-! ### Characterisation of the integrity-check walk -/

theorem checkIfMigrationsAreAltered_eq_none_iff (known : List migrationRow)
    (arts : List Artifact) :
    checkIfMigrationsAreAltered known arts = none ↔
      ∀ a ∈ arts, (findMigrationByName known a.name).2 = true →
        hashFile a.content = (findMigrationByName known a.name).1.MigrationHash := by
  induction arts with
  | nil => simp [checkIfMigrationsAreAltered]
  | cons a rest ih =>
    simp only [checkIfMigrationsAreAltered]
    by_cases h1 : (findMigrationByName known a.name).2 = true
    · by_cases h2 :
        hashFile a.content = (findMigrationByName known a.name).1.MigrationHash
      · simp only [h1, if_true, if_pos h2, ih, List.mem_cons]
        constructor
        · intro hall b hb
          rcases hb with hb | hb
          · subst hb; intro _; exact h2
          · exact hall b hb
        · intro hall b hb
          exact hall b (Or.inr hb)
      · simp only [h1, if_true, if_neg h2]
        constructor
        · intro hc; cases hc
        · intro hall
          exact absurd (hall a (List.mem_cons_self a rest) h1) h2
    · simp only [h1]
      rw [if_neg (by simp [h1]), ih]
      constructor
      · intro hall b hb hfound
        rcases List.mem_cons.mp hb with hb | hb
        · exact absurd (hb ▸ hfound) h1
        · exact hall b hb hfound
      · intro hall b hb
        exact hall b (List.mem_cons_of_mem a hb)

theorem checkIfMigrationsAreAltered_ne_none {known : List migrationRow}
    {arts : List Artifact} {a : Artifact} {r : migrationRow}
    (ha : a ∈ arts) (hfind : findMigrationByName known a.name = (r, true))
    (hne : hashFile a.content ≠ r.MigrationHash) :
    checkIfMigrationsAreAltered known arts ≠ none := by
  intro hnone
  have hall := (checkIfMigrationsAreAltered_eq_none_iff known arts).mp hnone
  have := hall a ha (by rw [hfind])
  rw [hfind] at this
  exact hne this

/-! ### Lemmas about `upsertMigration` -/

theorem upsertMigration_append (tx : List migrationRow) (r : migrationRow)
    (h : ∀ m ∈ tx, m.MigrationName ≠ r.MigrationName) :
    upsertMigration tx r = tx ++ [r] := by
  have hany : tx.any (fun m => m.MigrationName = r.MigrationName) = false := by
    simp only [List.any_eq_false, decide_eq_true_eq]
    exact h
  simp [upsertMigration, hany]

theorem findMigrationByName_map_overwrite (r : migrationRow) (name : String)
    (h : r.MigrationName ≠ name) :
    ∀ tx : List migrationRow,
      findMigrationByName
        (tx.map (fun m => if m.MigrationName = r.MigrationName then r else m)) name =
      findMigrationByName tx name := by
  intro tx
  induction tx with
  | nil => rfl
  | cons m rest ih =>
    by_cases he : m.MigrationName = r.MigrationName
    · have hm : m.MigrationName ≠ name := fun hn => h (he ▸ hn)
      simp only [List.map_cons, if_pos he, findMigrationByName, if_neg h, if_neg hm]
      exact ih
    · simp only [List.map_cons, if_neg he, findMigrationByName]
      by_cases hn : m.MigrationName = name
      · simp [hn]
      · simp only [if_neg hn]
        exact ih

theorem findMigrationByName_append_one (r : migrationRow) (name : String)
    (h : r.MigrationName ≠ name) :
    ∀ tx : List migrationRow,
      findMigrationByName (tx ++ [r]) name = findMigrationByName tx name := by
  intro tx
  induction tx with
  | nil => simp only [List.nil_append, findMigrationByName, if_neg h]
  | cons m rest ih =>
    simp only [List.cons_append, findMigrationByName]
    by_cases hn : m.MigrationName = name
    · simp [hn]
    · simp only [if_neg hn]
      exact ih

theorem findMigrationByName_upsert_other (tx : List migrationRow)
    (r : migrationRow) (name : String) (h : r.MigrationName ≠ name) :
    findMigrationByName (upsertMigration tx r) name = findMigrationByName tx name := by
  unfold upsertMigration
  split
  · exact findMigrationByName_map_overwrite r name h tx
  · exact findMigrationByName_append_one r name h tx

/-! ### Lemmas about the apply walk -/

theorem handleMigration_executed_append (env : Env) (known : List migrationRow) :
    ∀ (arts : List Artifact) (tx : List migrationRow) (execd : List String),
      ∃ s, (handleMigration env known arts tx execd).2 = execd ++ s ∧
        s.Sublist (arts.map Artifact.name) := by
  intro arts
  induction arts with
  | nil => intro tx execd; exact ⟨[], by simp [handleMigration], List.Sublist.refl _⟩
  | cons a rest ih =>
    intro tx execd
    by_cases hsk :
        ((findMigrationByName known a.name).2 &&
          (findMigrationByName known a.name).1.IsApplied) = true
    · simp only [handleMigration, if_pos hsk, List.map_cons]
      obtain ⟨s, hs, hsub⟩ := ih tx execd
      exact ⟨s, hs, hsub.cons a.name⟩
    · rcases hex : env.execSQL a.content with _ | dbErr
      · by_cases hup : env.upsertOk a.name = true
        · simp only [handleMigration, if_neg hsk, hex, if_pos hup, List.map_cons]
          obtain ⟨s, hs, hsub⟩ :=
            ih (upsertMigration tx ⟨a.name, hashFile a.content, true⟩)
              (execd ++ [a.name])
          refine ⟨a.name :: s, ?_, hsub.cons₂ a.name⟩
          rw [hs, List.append_assoc]
          rfl
        · simp only [handleMigration, if_neg hsk, hex, if_neg hup, List.map_cons]
          exact ⟨[a.name], rfl, (List.nil_sublist _).cons₂ a.name⟩
      · simp only [handleMigration, if_neg hsk, hex, List.map_cons]
        exact ⟨[a.name], rfl, (List.nil_sublist _).cons₂ a.name⟩

theorem handleMigration_all_applied (env : Env) (known : List migrationRow) :
    ∀ (arts : List Artifact) (tx : List migrationRow) (execd : List String),
      (∀ a ∈ arts, (findMigrationByName known a.name).2 = true ∧
        (findMigrationByName known a.name).1.IsApplied = true) →
      handleMigration env known arts tx execd = (Except.ok tx, execd) := by
  intro arts
  induction arts with
  | nil => intro tx execd _; rfl
  | cons a rest ih =>
    intro tx execd hall
    have ha := hall a (List.mem_cons_self a rest)
    simp only [handleMigration, ha.1, ha.2, Bool.and_self, if_true]
    exact ih tx execd (fun b hb => hall b (List.mem_cons_of_mem a hb))

theorem handleMigration_fresh (env : Env) (known : List migrationRow)
    (hexec : ∀ c, env.execSQL c = none) (hup : ∀ n, env.upsertOk n = true) :
    ∀ (arts : List Artifact) (tx : List migrationRow) (execd : List String),
      (∀ a ∈ arts, (findMigrationByName known a.name).2 = false) →
      (arts.map Artifact.name).Nodup →
      (∀ a ∈ arts, ∀ m ∈ tx, m.MigrationName ≠ a.name) →
      handleMigration env known arts tx execd =
        (Except.ok (tx ++ arts.map artRow), execd ++ arts.map Artifact.name) := by
  intro arts
  induction arts with
  | nil => intro tx execd _ _ _; simp [handleMigration]
  | cons a rest ih =>
    intro tx execd hnew hnd hdisj
    have ha := hnew a (List.mem_cons_self a rest)
    rw [List.map_cons, List.nodup_cons] at hnd
    have hskip :
        ¬(((findMigrationByName known a.name).2 &&
          (findMigrationByName known a.name).1.IsApplied) = true) := by
      simp [ha]
    simp only [handleMigration, if_neg hskip, hexec a.content, hup a.name, if_true]
    rw [upsertMigration_append tx ⟨a.name, hashFile a.content, true⟩
      (fun m hm => hdisj a (List.mem_cons_self a rest) m hm)]
    have hdisj2 : ∀ b ∈ rest,
        ∀ m ∈ tx ++ [(⟨a.name, hashFile a.content, true⟩ : migrationRow)],
          m.MigrationName ≠ b.name := by
      intro b hb m hm
      rcases List.mem_append.mp hm with hm | hm
      · exact hdisj b (List.mem_cons_of_mem a hb) m hm
      · rw [List.mem_singleton.mp hm]
        intro he
        refine hnd.1 ?_
        rw [show a.name = b.name from he]
        exact List.mem_map_of_mem Artifact.name hb
    rw [ih (tx ++ [(⟨a.name, hashFile a.content, true⟩ : migrationRow)])
      (execd ++ [a.name])
      (fun b hb => hnew b (List.mem_cons_of_mem a hb)) hnd.2 hdisj2]
    simp [artRow]

theorem handleMigration_ok_preserves (env : Env) (known : List migrationRow)
    (name : String) :
    ∀ (arts : List Artifact) (tx tx' : List migrationRow) (execd : List String),
      (∀ a ∈ arts, a.name = name →
        ((findMigrationByName known a.name).2 &&
          (findMigrationByName known a.name).1.IsApplied) = true) →
      (handleMigration env known arts tx execd).1 = Except.ok tx' →
      findMigrationByName tx' name = findMigrationByName tx name := by
  intro arts
  induction arts with
  | nil =>
    intro tx tx' execd _ hok
    simp only [handleMigration] at hok
    cases hok
    rfl
  | cons a rest ih =>
    intro tx tx' execd hskip hok
    by_cases hsk :
        ((findMigrationByName known a.name).2 &&
          (findMigrationByName known a.name).1.IsApplied) = true
    · simp only [handleMigration, if_pos hsk] at hok
      exact ih tx tx' execd (fun b hb => hskip b (List.mem_cons_of_mem a hb)) hok
    · have hne : a.name ≠ name := fun he =>
        hsk (hskip a (List.mem_cons_self a rest) he)
      rcases hex : env.execSQL a.content with _ | dbErr
      · by_cases hu : env.upsertOk a.name = true
        · simp only [handleMigration, if_neg hsk, hex, if_pos hu] at hok
          rw [ih (upsertMigration tx ⟨a.name, hashFile a.content, true⟩) tx'
            (execd ++ [a.name])
            (fun b hb => hskip b (List.mem_cons_of_mem a hb)) hok]
          exact findMigrationByName_upsert_other tx
            ⟨a.name, hashFile a.content, true⟩ name hne
        · simp only [handleMigration, if_neg hsk, hex, if_neg hu] at hok
          cases hok
      · simp only [handleMigration, if_neg hsk, hex] at hok
        cases hok

theorem handleMigration_fail_spec (env : Env) (known : List migrationRow)
    (n e : String) :
    ∀ (arts : List Artifact) (tx : List migrationRow) (execd : List String),
      (handleMigration env known arts tx execd).1 =
        Except.error (walkErr.migrationFailed n e) →
      (∃ a ∈ arts, a.name = n ∧ env.execSQL a.content = some e) ∧
        (handleMigration env known arts tx execd).2.getLast? = some n := by
  intro arts
  induction arts with
  | nil =>
    intro tx execd h
    simp [handleMigration] at h
  | cons a rest ih =>
    intro tx execd h
    by_cases hsk :
        ((findMigrationByName known a.name).2 &&
          (findMigrationByName known a.name).1.IsApplied) = true
    · simp only [handleMigration, if_pos hsk] at h ⊢
      obtain ⟨⟨b, hb, hbn, hbe⟩, hlast⟩ := ih tx execd h
      exact ⟨⟨b, List.mem_cons_of_mem a hb, hbn, hbe⟩, hlast⟩
    · rcases hex : env.execSQL a.content with _ | dbErr
      · by_cases hu : env.upsertOk a.name = true
        · simp only [handleMigration, if_neg hsk, hex, if_pos hu] at h ⊢
          obtain ⟨⟨b, hb, hbn, hbe⟩, hlast⟩ :=
            ih (upsertMigration tx ⟨a.name, hashFile a.content, true⟩)
              (execd ++ [a.name]) h
          exact ⟨⟨b, List.mem_cons_of_mem a hb, hbn, hbe⟩, hlast⟩
        · simp only [handleMigration, if_neg hsk, hex, if_neg hu] at h
          simp at h
      · simp only [handleMigration, if_neg hsk, hex] at h ⊢
        injection h with h
        injection h with h1 h2
        refine ⟨⟨a, List.mem_cons_self a rest, h1, ?_⟩, ?_⟩
        · rw [hex, h2]
        · rw [← h1, List.getLast?_concat]

/-! ### Case analyses of the orchestrator -/

theorem Migrate_ledger_cases (env : Env) (migs : List Artifact)
    (ledger : List migrationRow) :
    (Migrate env migs ledger).ledger = ledger ∨
      (Migrate env migs ledger).result = Except.ok () := by
  unfold Migrate
  repeat' split
  all_goals first | exact Or.inl rfl | exact Or.inr rfl

theorem Migrate_executed_cases (env : Env) (migs : List Artifact)
    (ledger : List migrationRow) :
    (Migrate env migs ledger).executed = [] ∨
      (Migrate env migs ledger).executed =
        (handleMigration env ledger (sortByName migs) ledger []).2 := by
  by_cases h1 : env.connOk = false
  · exact Or.inl (by simp [Migrate, h1])
  by_cases h2 : env.beginOk = false
  · exact Or.inl (by simp [Migrate, h1, h2])
  by_cases h3 : env.createTableOk = false
  · exact Or.inl (by simp [Migrate, h1, h2, h3])
  by_cases h4 : env.checkQueryOk = false
  · exact Or.inl (by simp [Migrate, h1, h2, h3, h4])
  rcases hchk : checkIfMigrationsAreAltered ledger (sortByName migs) with _ | x
  rotate_left
  · exact Or.inl (by simp [Migrate, h1, h2, h3, h4, hchk])
  by_cases h5 : env.applyQueryOk = false
  · exact Or.inl (by simp [Migrate, h1, h2, h3, h4, hchk, h5])
  rcases hpair : handleMigration env ledger (sortByName migs) ledger [] with ⟨res, ex⟩
  refine Or.inr ?_
  cases res with
  | error e => simp [Migrate, h1, h2, h3, h4, hchk, h5, hpair]
  | ok tx =>
      by_cases h6 : env.commitOk = false <;>
        simp [Migrate, h1, h2, h3, h4, hchk, h5, hpair, h6]

theorem Migrate_ok_spec (env : Env) (migs : List Artifact)
    (ledger : List migrationRow)
    (hok : (Migrate env migs ledger).result = Except.ok ()) :
    env.connOk = true ∧ env.beginOk = true ∧ env.createTableOk = true ∧
      env.checkQueryOk = true ∧
      checkIfMigrationsAreAltered ledger (sortByName migs) = none ∧
      env.applyQueryOk = true ∧ env.commitOk = true ∧
      (handleMigration env ledger (sortByName migs) ledger []).1 =
        Except.ok (Migrate env migs ledger).ledger ∧
      (Migrate env migs ledger).executed =
        (handleMigration env ledger (sortByName migs) ledger []).2 := by
  by_cases h1 : env.connOk = false
  · exfalso; simp [Migrate, h1] at hok
  by_cases h2 : env.beginOk = false
  · exfalso; simp [Migrate, h1, h2] at hok
  by_cases h3 : env.createTableOk = false
  · exfalso; simp [Migrate, h1, h2, h3] at hok
  by_cases h4 : env.checkQueryOk = false
  · exfalso; simp [Migrate, h1, h2, h3, h4] at hok
  rcases hchk : checkIfMigrationsAreAltered ledger (sortByName migs) with _ | x
  rotate_left
  · exfalso; simp [Migrate, h1, h2, h3, h4, hchk] at hok
  by_cases h5 : env.applyQueryOk = false
  · exfalso; simp [Migrate, h1, h2, h3, h4, hchk, h5] at hok
  rcases hpair : handleMigration env ledger (sortByName migs) ledger [] with ⟨res, ex⟩
  cases res with
  | error e =>
      exfalso; simp [Migrate, h1, h2, h3, h4, hchk, h5, hpair] at hok
  | ok tx =>
      by_cases h6 : env.commitOk = false
      · exfalso; simp [Migrate, h1, h2, h3, h4, hchk, h5, hpair, h6] at hok
      have hM : Migrate env migs ledger = ⟨Except.ok (), tx, ex⟩ := by
        simp [Migrate, h1, h2, h3, h4, hchk, h5, hpair, h6]
      refine ⟨?_, ?_, ?_, ?_, rfl, ?_, ?_, ?_, ?_⟩
      · revert h1; cases env.connOk <;> simp
      · revert h2; cases env.beginOk <;> simp
      · revert h3; cases env.createTableOk <;> simp
      · revert h4; cases env.checkQueryOk <;> simp
      · revert h5; cases env.applyQueryOk <;> simp
      · revert h6; cases env.commitOk <;> simp
      · rw [hM]
      · rw [hM]

/-! ### Success characterisations of the apply walk -/

theorem handleMigration_ok_fresh (env : Env) (known : List migrationRow) :
    ∀ (arts : List Artifact) (tx : List migrationRow) (execd : List String)
      (tx' : List migrationRow),
      (∀ a ∈ arts, (findMigrationByName known a.name).2 = false) →
      (arts.map Artifact.name).Nodup →
      (∀ a ∈ arts, ∀ m ∈ tx, m.MigrationName ≠ a.name) →
      (handleMigration env known arts tx execd).1 = Except.ok tx' →
      tx' = tx ++ arts.map artRow ∧
        (handleMigration env known arts tx execd).2 =
          execd ++ arts.map Artifact.name := by
  intro arts
  induction arts with
  | nil =>
    intro tx execd tx' _ _ _ hok
    simp only [handleMigration] at hok ⊢
    cases hok
    simp
  | cons a rest ih =>
    intro tx execd tx' hnew hnd hdisj hok
    have ha := hnew a (List.mem_cons_self a rest)
    rw [List.map_cons, List.nodup_cons] at hnd
    have hskip :
        ¬(((findMigrationByName known a.name).2 &&
          (findMigrationByName known a.name).1.IsApplied) = true) := by
      simp [ha]
    rcases hex : env.execSQL a.content with _ | dbErr
    · by_cases hu : env.upsertOk a.name = true
      · simp only [handleMigration, if_neg hskip, hex, if_pos hu] at hok ⊢
        rw [upsertMigration_append tx ⟨a.name, hashFile a.content, true⟩
          (fun m hm => hdisj a (List.mem_cons_self a rest) m hm)] at hok ⊢
        have hdisj2 : ∀ b ∈ rest,
            ∀ m ∈ tx ++ [(⟨a.name, hashFile a.content, true⟩ : migrationRow)],
              m.MigrationName ≠ b.name := by
          intro b hb m hm
          rcases List.mem_append.mp hm with hm | hm
          · exact hdisj b (List.mem_cons_of_mem a hb) m hm
          · rw [List.mem_singleton.mp hm]
            intro he
            refine hnd.1 ?_
            rw [show a.name = b.name from he]
            exact List.mem_map_of_mem Artifact.name hb
        obtain ⟨htx, hexd⟩ := ih (tx ++ [⟨a.name, hashFile a.content, true⟩])
          (execd ++ [a.name]) tx'
          (fun b hb => hnew b (List.mem_cons_of_mem a hb)) hnd.2 hdisj2 hok
        refine ⟨?_, ?_⟩
        · rw [htx]; simp [artRow]
        · rw [hexd]; simp
      · simp only [handleMigration, if_neg hskip, hex, if_neg hu] at hok
        cases hok
    · simp only [handleMigration, if_neg hskip, hex] at hok
      cases hok

theorem handleMigration_executed_mem (env : Env) (known : List migrationRow) :
    ∀ (arts : List Artifact) (tx : List migrationRow) (execd : List String)
      (m : String),
      m ∈ (handleMigration env known arts tx execd).2 →
      m ∈ execd ∨ ∃ b ∈ arts, b.name = m ∧
        ¬(((findMigrationByName known b.name).2 &&
          (findMigrationByName known b.name).1.IsApplied) = true) := by
  intro arts
  induction arts with
  | nil =>
    intro tx execd m hm
    simp only [handleMigration] at hm
    exact Or.inl hm
  | cons a rest ih =>
    intro tx execd m hm
    by_cases hsk :
        ((findMigrationByName known a.name).2 &&
          (findMigrationByName known a.name).1.IsApplied) = true
    · simp only [handleMigration, if_pos hsk] at hm
      rcases ih tx execd m hm with h | ⟨b, hb, hbm, hbn⟩
      · exact Or.inl h
      · exact Or.inr ⟨b, List.mem_cons_of_mem a hb, hbm, hbn⟩
    · rcases hex : env.execSQL a.content with _ | dbErr
      · by_cases hu : env.upsertOk a.name = true
        · simp only [handleMigration, if_neg hsk, hex, if_pos hu] at hm
          rcases ih (upsertMigration tx ⟨a.name, hashFile a.content, true⟩)
              (execd ++ [a.name]) m hm with h | ⟨b, hb, hbm, hbn⟩
          · rcases List.mem_append.mp h with h | h
            · exact Or.inl h
            · exact Or.inr ⟨a, List.mem_cons_self a rest,
                (List.mem_singleton.mp h).symm, hsk⟩
          · exact Or.inr ⟨b, List.mem_cons_of_mem a hb, hbm, hbn⟩
        · simp only [handleMigration, if_neg hsk, hex, if_neg hu] at hm
          rcases List.mem_append.mp hm with h | h
          · exact Or.inl h
          · exact Or.inr ⟨a, List.mem_cons_self a rest,
              (List.mem_singleton.mp h).symm, hsk⟩
      · simp only [handleMigration, if_neg hsk, hex] at hm
        rcases List.mem_append.mp hm with h | h
        · exact Or.inl h
        · exact Or.inr ⟨a, List.mem_cons_self a rest,
            (List.mem_singleton.mp h).symm, hsk⟩

theorem handleMigration_ok_executes (env : Env) (known : List migrationRow) :
    ∀ (arts : List Artifact) (tx : List migrationRow) (execd : List String)
      (tx' : List migrationRow) (b : Artifact),
      (handleMigration env known arts tx execd).1 = Except.ok tx' →
      b ∈ arts →
      ¬(((findMigrationByName known b.name).2 &&
        (findMigrationByName known b.name).1.IsApplied) = true) →
      b.name ∈ (handleMigration env known arts tx execd).2 := by
  intro arts
  induction arts with
  | nil =>
    intro tx execd tx' b _ hb _
    cases hb
  | cons a rest ih =>
    intro tx execd tx' b hok hb hnsk
    by_cases hsk :
        ((findMigrationByName known a.name).2 &&
          (findMigrationByName known a.name).1.IsApplied) = true
    · simp only [handleMigration, if_pos hsk] at hok ⊢
      rcases List.mem_cons.mp hb with hb | hb
      · exact absurd (hb ▸ hsk) hnsk
      · exact ih tx execd tx' b hok hb hnsk
    · rcases hex : env.execSQL a.content with _ | dbErr
      · by_cases hu : env.upsertOk a.name = true
        · simp only [handleMigration, if_neg hsk, hex, if_pos hu] at hok ⊢
          rcases List.mem_cons.mp hb with hb | hb
          · obtain ⟨s, hs, _⟩ := handleMigration_executed_append env known rest
              (upsertMigration tx ⟨a.name, hashFile a.content, true⟩)
              (execd ++ [a.name])
            rw [hs, List.append_assoc]
            subst hb
            exact List.mem_append.mpr (Or.inr (List.mem_append.mpr
              (Or.inl (List.mem_singleton.mpr rfl))))
          · exact ih (upsertMigration tx ⟨a.name, hashFile a.content, true⟩)
              (execd ++ [a.name]) tx' b hok hb hnsk
        · simp only [handleMigration, if_neg hsk, hex, if_neg hu] at hok
          cases hok
      · simp only [handleMigration, if_neg hsk, hex] at hok
        cases hok

/-! ### Sorted lists and their last element -/

theorem pairwise_le_mem_getLast :
    ∀ (l : List String) (n : String), l.Pairwise (fun x y => strLe x y = true) →
      l.getLast? = some n → ∀ m ∈ l, strLe m n = true := by
  intro l
  induction l with
  | nil => intro n _ _ m hm; cases hm
  | cons a rest ih =>
    intro n hp hl m hm
    rw [List.pairwise_cons] at hp
    cases rest with
    | nil =>
      have hma : m = a := List.mem_singleton.mp hm
      have han : a = n := by simpa using hl
      rw [hma, han]
      exact strLe_refl n
    | cons b rest' =>
      rw [List.getLast?_cons_cons] at hl
      rcases List.mem_cons.mp hm with rfl | hm
      · have hn : n ∈ b :: rest' := by
          obtain ⟨hne, heq⟩ := List.mem_getLast?_eq_getLast (Option.mem_def.mpr hl)
          rw [heq]
          exact List.getLast_mem hne
        exact hp.1 n hn
      · exact ih n hp.2 hl m hm

/-! ### Claim theorems -/

/-- C1: for every ledger containing an applied record named `X` with hash `H`
and every artifact source presenting a file `X` whose content hashes to a
value different from `H`, a run that reaches the integrity check returns the
`migrationFileChanged` error, executes no artifact, and leaves the ledger
unchanged. -/
theorem migrate_tamper_detection (env : Env) (migs : List Artifact)
    (ledger : List migrationRow) (X H : String) (c : List Nat)
    (h1 : env.connOk = true) (h2 : env.beginOk = true)
    (h3 : env.createTableOk = true) (h4 : env.checkQueryOk = true)
    (hnd : (ledger.map migrationRow.MigrationName).Nodup)
    (hrow : (⟨X, H, true⟩ : migrationRow) ∈ ledger)
    (hart : (⟨X, c⟩ : Artifact) ∈ migs)
    (hne : hashFile c ≠ H) :
    (Migrate env migs ledger).result = Except.error MigrateErr.migrationFileChanged ∧
      (Migrate env migs ledger).executed = [] ∧
      (Migrate env migs ledger).ledger = ledger := by
  have hfind : findMigrationByName ledger X = (⟨X, H, true⟩, true) :=
    findMigrationByName_eq_of_mem ledger ⟨X, H, true⟩ hnd hrow
  have hsome := @checkIfMigrationsAreAltered_ne_none ledger
    (sortByName migs) ⟨X, c⟩ ⟨X, H, true⟩
    (mem_sortByName.mpr hart) hfind hne
  obtain ⟨x, hx⟩ := Option.ne_none_iff_exists'.mp hsome
  have h1f : ¬(env.connOk = false) := by simp [h1]
  have h2f : ¬(env.beginOk = false) := by simp [h2]
  have h3f : ¬(env.createTableOk = false) := by simp [h3]
  have h4f : ¬(env.checkQueryOk = false) := by simp [h4]
  refine ⟨?_, ?_, ?_⟩ <;> simp [Migrate, h1f, h2f, h3f, h4f, hx]

/-- Witness for C1 at a concrete tampered ledger. -/
theorem migrate_tamper_detection_witness :
    (Migrate envOk [⟨"X", [104]⟩] [⟨"X", "h0", true⟩]).result
        = Except.error MigrateErr.migrationFileChanged ∧
      (Migrate envOk [⟨"X", [104]⟩] [⟨"X", "h0", true⟩]).executed = [] ∧
      (Migrate envOk [⟨"X", [104]⟩] [⟨"X", "h0", true⟩]).ledger
        = [⟨"X", "h0", true⟩] :=
  migrate_tamper_detection envOk [⟨"X", [104]⟩] [⟨"X", "h0", true⟩]
    "X" "h0" [104] rfl rfl rfl rfl (by decide) (by decide) (by decide) (by decide)

/-- C10: a record with `IsApplied = false` whose stored hash differs from the
current content of the same-named artifact still trips the integrity check:
the run fails with `migrationFileChanged`, the re-execution path is never
reached (nothing is executed), and the ledger is unchanged. -/
theorem migrate_checks_unapplied_records (env : Env) (migs : List Artifact)
    (ledger : List migrationRow) (X H : String) (c : List Nat)
    (h1 : env.connOk = true) (h2 : env.beginOk = true)
    (h3 : env.createTableOk = true) (h4 : env.checkQueryOk = true)
    (hnd : (ledger.map migrationRow.MigrationName).Nodup)
    (hrow : (⟨X, H, false⟩ : migrationRow) ∈ ledger)
    (hart : (⟨X, c⟩ : Artifact) ∈ migs)
    (hne : hashFile c ≠ H) :
    (Migrate env migs ledger).result = Except.error MigrateErr.migrationFileChanged ∧
      (Migrate env migs ledger).executed = [] ∧
      (Migrate env migs ledger).ledger = ledger := by
  have hfind : findMigrationByName ledger X = (⟨X, H, false⟩, true) :=
    findMigrationByName_eq_of_mem ledger ⟨X, H, false⟩ hnd hrow
  have hsome := @checkIfMigrationsAreAltered_ne_none ledger
    (sortByName migs) ⟨X, c⟩ ⟨X, H, false⟩
    (mem_sortByName.mpr hart) hfind hne
  obtain ⟨x, hx⟩ := Option.ne_none_iff_exists'.mp hsome
  have h1f : ¬(env.connOk = false) := by simp [h1]
  have h2f : ¬(env.beginOk = false) := by simp [h2]
  have h3f : ¬(env.createTableOk = false) := by simp [h3]
  have h4f : ¬(env.checkQueryOk = false) := by simp [h4]
  refine ⟨?_, ?_, ?_⟩ <;> simp [Migrate, h1f, h2f, h3f, h4f, hx]

/-- Witness for C10 at a concrete ledger with an unapplied, altered record. -/
theorem migrate_checks_unapplied_records_witness :
    (Migrate envOk [⟨"Y", [1, 2]⟩] [⟨"Y", "old", false⟩]).result
        = Except.error MigrateErr.migrationFileChanged ∧
      (Migrate envOk [⟨"Y", [1, 2]⟩] [⟨"Y", "old", false⟩]).executed = [] ∧
      (Migrate envOk [⟨"Y", [1, 2]⟩] [⟨"Y", "old", false⟩]).ledger
        = [⟨"Y", "old", false⟩] :=
  migrate_checks_unapplied_records envOk [⟨"Y", [1, 2]⟩] [⟨"Y", "old", false⟩]
    "Y" "old" [1, 2] rfl rfl rfl rfl (by decide) (by decide) (by decide) (by decide)

/-- C3: every erroring run leaves the durable ledger exactly as it was
before the run (the transaction is rolled back on every failing path). -/
theorem migrate_error_rollback (env : Env) (migs : List Artifact)
    (ledger : List migrationRow) (e : MigrateErr)
    (h : (Migrate env migs ledger).result = Except.error e) :
    (Migrate env migs ledger).ledger = ledger := by
  rcases Migrate_ledger_cases env migs ledger with hl | hok
  · exact hl
  · rw [h] at hok
    exact Except.noConfusion hok

/-- Witness for C3 at a concrete failing run (no connection). -/
theorem migrate_error_rollback_witness :
    (Migrate ⟨false, true, true, true, true, fun _ => none, fun _ => true, true⟩
        [] [⟨"a", "b", true⟩]).result = Except.error MigrateErr.getConnection ∧
      (Migrate ⟨false, true, true, true, true, fun _ => none, fun _ => true, true⟩
        [] [⟨"a", "b", true⟩]).ledger = [⟨"a", "b", true⟩] :=
  ⟨rfl, migrate_error_rollback _ [] [⟨"a", "b", true⟩] MigrateErr.getConnection rfl⟩

/-- C5: when the run fails with the `migrationFailed` kind carrying name `n`
and database error `e`, the ledger is rolled back, some artifact named `n`
has content whose execution fails with `e`, the failing artifact is the last
one executed, and nothing later in the lexicographic order was executed. -/
theorem migrate_execution_failure (env : Env) (migs : List Artifact)
    (ledger : List migrationRow) (n e : String)
    (h : (Migrate env migs ledger).result =
      Except.error (MigrateErr.walkMigrations (walkErr.migrationFailed n e))) :
    (Migrate env migs ledger).ledger = ledger ∧
      (∃ a ∈ migs, a.name = n ∧ env.execSQL a.content = some e) ∧
      (Migrate env migs ledger).executed.getLast? = some n ∧
      (∀ m ∈ (Migrate env migs ledger).executed, strLe m n = true) := by
  have hled : (Migrate env migs ledger).ledger = ledger := by
    rcases Migrate_ledger_cases env migs ledger with hl | hok
    · exact hl
    · rw [h] at hok
      exact Except.noConfusion hok
  by_cases h1 : env.connOk = false
  · exfalso; simp [Migrate, h1] at h
  by_cases h2 : env.beginOk = false
  · exfalso; simp [Migrate, h1, h2] at h
  by_cases h3 : env.createTableOk = false
  · exfalso; simp [Migrate, h1, h2, h3] at h
  by_cases h4 : env.checkQueryOk = false
  · exfalso; simp [Migrate, h1, h2, h3, h4] at h
  rcases hchk : checkIfMigrationsAreAltered ledger (sortByName migs) with _ | x
  rotate_left
  · exfalso; simp [Migrate, h1, h2, h3, h4, hchk] at h
  by_cases h5 : env.applyQueryOk = false
  · exfalso; simp [Migrate, h1, h2, h3, h4, hchk, h5] at h
  rcases hpair : handleMigration env ledger (sortByName migs) ledger [] with ⟨res, ex⟩
  cases res with
  | ok tx =>
      exfalso
      by_cases h6 : env.commitOk = false <;>
        simp [Migrate, h1, h2, h3, h4, hchk, h5, hpair, h6] at h
  | error we =>
      have hwe : we = walkErr.migrationFailed n e := by
        simp [Migrate, h1, h2, h3, h4, hchk, h5, hpair] at h
        exact h
      subst hwe
      obtain ⟨⟨a, ha, han, hae⟩, hlast⟩ :=
        handleMigration_fail_spec env ledger n e (sortByName migs) ledger []
          (by rw [hpair])
      have hx : (handleMigration env ledger (sortByName migs) ledger []).2 = ex := by
        rw [hpair]
      have hexec : (Migrate env migs ledger).executed = ex := by
        simp [Migrate, h1, h2, h3, h4, hchk, h5, hpair]
      obtain ⟨s, hs, hsub⟩ :=
        handleMigration_executed_append env ledger (sortByName migs) ledger []
      have hples : s.Pairwise (fun x y => strLe x y = true) := by
        refine List.Pairwise.sublist hsub ?_
        exact List.pairwise_map.mpr (sortByName_pairwise migs)
      have hexs : ex = s := by
        rw [← hx, hs, List.nil_append]
      refine ⟨hled, ⟨a, mem_sortByName.mp ha, han, hae⟩, ?_, ?_⟩
      · rw [hexec, ← hx]
        exact hlast
      · intro m hm
        rw [hexec, hexs] at hm
        refine pairwise_le_mem_getLast s n hples ?_ m hm
        rw [← hexs, ← hx]
        exact hlast

/-- Witness for C5: the second of three artifacts fails to execute. -/
theorem migrate_execution_failure_witness :
    (Migrate envExecFail [⟨"001", [101]⟩, ⟨"002", [104]⟩, ⟨"003", [105]⟩] []).ledger
        = [] ∧
      (∃ a ∈ [(⟨"001", [101]⟩ : Artifact), ⟨"002", [104]⟩, ⟨"003", [105]⟩],
        a.name = "002" ∧ envExecFail.execSQL a.content = some "boom") ∧
      (Migrate envExecFail [⟨"001", [101]⟩, ⟨"002", [104]⟩, ⟨"003", [105]⟩]
          []).executed.getLast? = some "002" ∧
      (∀ m ∈ (Migrate envExecFail
          [⟨"001", [101]⟩, ⟨"002", [104]⟩, ⟨"003", [105]⟩] []).executed,
        strLe m "002" = true) :=
  migrate_execution_failure envExecFail
    [⟨"001", [101]⟩, ⟨"002", [104]⟩, ⟨"003", [105]⟩] [] "002" "boom" (by decide)

/-- C6 (amended): the run returns the bare `migrationFileChanged` sentinel
exactly when the integrity-check walk fails for any reason: an actual hash
mismatch, or a ledger-read failure during the check; the sentinel carries no
artifact name, and no other phase produces this error kind. -/
theorem migrate_filechanged_iff (env : Env) (migs : List Artifact)
    (ledger : List migrationRow) :
    (Migrate env migs ledger).result = Except.error MigrateErr.migrationFileChanged ↔
      env.connOk = true ∧ env.beginOk = true ∧ env.createTableOk = true ∧
        (env.checkQueryOk = false ∨
          checkIfMigrationsAreAltered ledger (sortByName migs) ≠ none) := by
  constructor
  · intro h
    by_cases h1 : env.connOk = false
    · exfalso; simp [Migrate, h1] at h
    by_cases h2 : env.beginOk = false
    · exfalso; simp [Migrate, h1, h2] at h
    by_cases h3 : env.createTableOk = false
    · exfalso; simp [Migrate, h1, h2, h3] at h
    have h1t : env.connOk = true := by revert h1; cases env.connOk <;> simp
    have h2t : env.beginOk = true := by revert h2; cases env.beginOk <;> simp
    have h3t : env.createTableOk = true := by
      revert h3; cases env.createTableOk <;> simp
    by_cases h4 : env.checkQueryOk = false
    · exact ⟨h1t, h2t, h3t, Or.inl h4⟩
    rcases hchk : checkIfMigrationsAreAltered ledger (sortByName migs) with _ | x
    rotate_left
    · exact ⟨h1t, h2t, h3t, Or.inr (by simp [hchk])⟩
    exfalso
    by_cases h5 : env.applyQueryOk = false
    · simp [Migrate, h1, h2, h3, h4, hchk, h5] at h
    rcases hpair : handleMigration env ledger (sortByName migs) ledger [] with ⟨res, ex⟩
    cases res with
    | error we => simp [Migrate, h1, h2, h3, h4, hchk, h5, hpair] at h
    | ok tx =>
        by_cases h6 : env.commitOk = false <;>
          simp [Migrate, h1, h2, h3, h4, hchk, h5, hpair, h6] at h
  · rintro ⟨h1, h2, h3, h4⟩
    have h1f : ¬(env.connOk = false) := by simp [h1]
    have h2f : ¬(env.beginOk = false) := by simp [h2]
    have h3f : ¬(env.createTableOk = false) := by simp [h3]
    rcases h4 with h4 | h4
    · simp [Migrate, h1f, h2f, h3f, h4]
    · by_cases h4q : env.checkQueryOk = false
      · simp [Migrate, h1f, h2f, h3f, h4q]
      · obtain ⟨x, hx⟩ := Option.ne_none_iff_exists'.mp h4
        simp [Migrate, h1f, h2f, h3f, h4q, hx]

/-- Counterexample to C6 as stated: with no artifacts at all (hence no
matching artifact with a differing hash), a ledger-read failure during the
integrity check is still reported as `migrationFileChanged`. -/
theorem migrate_filechanged_without_mismatch :
    (Migrate envCheckQueryFail [] []).result =
        Except.error MigrateErr.migrationFileChanged ∧
      checkIfMigrationsAreAltered [] [] = none :=
  ⟨rfl, rfl⟩

/-- C9: in every run, the artifacts whose content is executed are executed
in strictly ascending lexicographic order of their names (given distinct
artifact names). -/
theorem migrate_execution_order (env : Env) (migs : List Artifact)
    (ledger : List migrationRow)
    (hnd : (migs.map Artifact.name).Nodup) :
    (Migrate env migs ledger).executed.Pairwise (fun x y => strLt x y = true) := by
  have hple : ((sortByName migs).map Artifact.name).Pairwise
      (fun x y => strLe x y = true) :=
    List.pairwise_map.mpr (sortByName_pairwise migs)
  have hpnd : ((sortByName migs).map Artifact.name).Pairwise (· ≠ ·) :=
    sortByName_names_nodup hnd
  have hplt : ((sortByName migs).map Artifact.name).Pairwise
      (fun x y => strLt x y = true) :=
    (hple.and hpnd).imp (fun h => strLt_of_le_of_ne h.1 h.2)
  rcases Migrate_executed_cases env migs ledger with he | he
  · rw [he]
    exact List.Pairwise.nil
  · rw [he]
    obtain ⟨s, hs, hsub⟩ :=
      handleMigration_executed_append env ledger (sortByName migs) ledger []
    rw [hs, List.nil_append]
    exact List.Pairwise.sublist hsub hplt

/-- Witness for C9 at a concrete out-of-order artifact list. -/
theorem migrate_execution_order_witness :
    (Migrate envOk [⟨"002", [104]⟩, ⟨"001", [101]⟩] []).executed.Pairwise
      (fun x y => strLt x y = true) :=
  migrate_execution_order envOk [⟨"002", [104]⟩, ⟨"001", [101]⟩] [] (by decide)

/-- C2: the digest recorded and compared for an artifact is not the SHA-256
of the raw content bytes: `hashFile` feeds the Go `%v` rendering of the byte
slice (the ASCII text `[104]` for the single byte `104`) into SHA-256, so
the digest of content `[104]` differs from the hex SHA-256 of the byte
itself, contradicting the hasher contract of the specification. -/
theorem hashFile_not_raw_bytes :
    hashFile [104] = sha256hex (strBytes (goFormatBytes [104])) ∧
      hashFile [104] ≠ sha256hex [104] :=
  ⟨rfl, by decide⟩

/-- C4: from an empty ledger, a successful run records exactly one row per
artifact: as many rows as artifacts, every row applied, every artifact has
the row `⟨name, hashFile content, true⟩`, and every row comes from an
artifact. -/
theorem migrate_completeness (env : Env) (migs : List Artifact)
    (hnd : (migs.map Artifact.name).Nodup)
    (hok : (Migrate env migs []).result = Except.ok ()) :
    (Migrate env migs []).ledger.length = migs.length ∧
      (∀ r ∈ (Migrate env migs []).ledger, r.IsApplied = true) ∧
      (∀ a ∈ migs, (⟨a.name, hashFile a.content, true⟩ : migrationRow) ∈
        (Migrate env migs []).ledger) ∧
      (∀ r ∈ (Migrate env migs []).ledger, ∃ a ∈ migs,
        r = ⟨a.name, hashFile a.content, true⟩) := by
  obtain ⟨_, _, _, _, _, _, _, hhandle, _⟩ := Migrate_ok_spec env migs [] hok
  obtain ⟨htx, _⟩ := handleMigration_ok_fresh env [] (sortByName migs) [] []
    (Migrate env migs []).ledger (fun a _ => rfl) (sortByName_names_nodup hnd)
    (fun a _ m hm => absurd hm (List.not_mem_nil m)) hhandle
  have hL : (Migrate env migs []).ledger = (sortByName migs).map artRow := by
    rw [htx, List.nil_append]
  refine ⟨?_, ?_, ?_, ?_⟩
  · rw [hL, List.length_map, (sortByName_perm migs).length_eq]
  · rw [hL]
    intro r hr
    obtain ⟨a, _, rfl⟩ := List.mem_map.mp hr
    rfl
  · rw [hL]
    intro a ha
    exact List.mem_map_of_mem artRow (mem_sortByName.mpr ha)
  · rw [hL]
    intro r hr
    obtain ⟨a, ha, rfl⟩ := List.mem_map.mp hr
    exact ⟨a, mem_sortByName.mp ha, rfl⟩

/-- Witness for C4 at two concrete artifacts. -/
theorem migrate_completeness_witness :
    (Migrate envOk [⟨"002", [104]⟩, ⟨"001", [101]⟩] []).ledger.length =
        ([(⟨"002", [104]⟩ : Artifact), ⟨"001", [101]⟩] : List Artifact).length ∧
      (∀ r ∈ (Migrate envOk [⟨"002", [104]⟩, ⟨"001", [101]⟩] []).ledger,
        r.IsApplied = true) ∧
      (∀ a ∈ [(⟨"002", [104]⟩ : Artifact), ⟨"001", [101]⟩],
        (⟨a.name, hashFile a.content, true⟩ : migrationRow) ∈
          (Migrate envOk [⟨"002", [104]⟩, ⟨"001", [101]⟩] []).ledger) ∧
      (∀ r ∈ (Migrate envOk [⟨"002", [104]⟩, ⟨"001", [101]⟩] []).ledger,
        ∃ a ∈ [(⟨"002", [104]⟩ : Artifact), ⟨"001", [101]⟩],
          r = ⟨a.name, hashFile a.content, true⟩) :=
  migrate_completeness envOk [⟨"002", [104]⟩, ⟨"001", [101]⟩]
    (by decide) (by decide)

/-- C7: from an empty ledger, after a successful run a second run over the
same artifact set succeeds, leaves the ledger exactly as the first run left
it, and executes zero artifacts. -/
theorem migrate_idempotent (env : Env) (migs : List Artifact)
    (hnd : (migs.map Artifact.name).Nodup)
    (hok : (Migrate env migs []).result = Except.ok ()) :
    Migrate env migs (Migrate env migs []).ledger =
      ⟨Except.ok (), (Migrate env migs []).ledger, []⟩ := by
  obtain ⟨h1, h2, h3, h4, _, h5, h6, hhandle, _⟩ := Migrate_ok_spec env migs [] hok
  obtain ⟨htx, _⟩ := handleMigration_ok_fresh env [] (sortByName migs) [] []
    (Migrate env migs []).ledger (fun a _ => rfl) (sortByName_names_nodup hnd)
    (fun a _ m hm => absurd hm (List.not_mem_nil m)) hhandle
  have hL : (Migrate env migs []).ledger = (sortByName migs).map artRow := by
    rw [htx, List.nil_append]
  have hLnodup :
      ((Migrate env migs []).ledger.map migrationRow.MigrationName).Nodup := by
    rw [hL, List.map_map]
    exact sortByName_names_nodup hnd
  have hfind : ∀ a ∈ sortByName migs,
      findMigrationByName (Migrate env migs []).ledger a.name =
        (artRow a, true) := by
    intro a ha
    exact findMigrationByName_eq_of_mem (Migrate env migs []).ledger
      (artRow a) hLnodup (by rw [hL]; exact List.mem_map_of_mem artRow ha)
  have hchk2 : checkIfMigrationsAreAltered (Migrate env migs []).ledger
      (sortByName migs) = none := by
    rw [checkIfMigrationsAreAltered_eq_none_iff]
    intro a ha _
    rw [hfind a ha]
    rfl
  have hhandle2 : handleMigration env (Migrate env migs []).ledger
      (sortByName migs) (Migrate env migs []).ledger [] =
      (Except.ok (Migrate env migs []).ledger, []) :=
    handleMigration_all_applied env (Migrate env migs []).ledger
      (sortByName migs) (Migrate env migs []).ledger []
      (fun a ha => by rw [hfind a ha]; exact ⟨rfl, rfl⟩)
  have h1f : ¬(env.connOk = false) := by simp [h1]
  have h2f : ¬(env.beginOk = false) := by simp [h2]
  have h3f : ¬(env.createTableOk = false) := by simp [h3]
  have h4f : ¬(env.checkQueryOk = false) := by simp [h4]
  have h5f : ¬(env.applyQueryOk = false) := by simp [h5]
  have h6f : ¬(env.commitOk = false) := by simp [h6]
  generalize hGL : (Migrate env migs []).ledger = L at hchk2 hhandle2 ⊢
  simp [Migrate, h1f, h2f, h3f, h4f, h5f, h6f, hchk2, hhandle2]

/-- Witness for C7 at two concrete artifacts. -/
theorem migrate_idempotent_witness :
    Migrate envOk [⟨"002", [104]⟩, ⟨"001", [101]⟩]
        (Migrate envOk [⟨"002", [104]⟩, ⟨"001", [101]⟩] []).ledger =
      ⟨Except.ok (),
        (Migrate envOk [⟨"002", [104]⟩, ⟨"001", [101]⟩] []).ledger, []⟩ :=
  migrate_idempotent envOk [⟨"002", [104]⟩, ⟨"001", [101]⟩]
    (by decide) (by decide)

/-- C8: in a successful run, an artifact whose known record is applied is
skipped — its content is never executed and its ledger row survives
unchanged — while an artifact whose known record exists with
`IsApplied = false` is re-executed. -/
theorem migrate_skip_and_reexecute (env : Env) (migs : List Artifact)
    (ledger : List migrationRow) (a : Artifact)
    (ha : a ∈ migs)
    (hok : (Migrate env migs ledger).result = Except.ok ()) :
    ((findMigrationByName ledger a.name).2 = true →
      (findMigrationByName ledger a.name).1.IsApplied = true →
      a.name ∉ (Migrate env migs ledger).executed ∧
        findMigrationByName (Migrate env migs ledger).ledger a.name =
          findMigrationByName ledger a.name) ∧
    ((findMigrationByName ledger a.name).2 = true →
      (findMigrationByName ledger a.name).1.IsApplied = false →
      a.name ∈ (Migrate env migs ledger).executed) := by
  obtain ⟨h1, h2, h3, h4, hchk, h5, h6, hhandle, hexec⟩ :=
    Migrate_ok_spec env migs ledger hok
  constructor
  · intro hf hap
    constructor
    · intro hmem
      rw [hexec] at hmem
      rcases handleMigration_executed_mem env ledger (sortByName migs)
          ledger [] a.name hmem with hc | ⟨b, hb, hbn, hbsk⟩
      · exact absurd hc (List.not_mem_nil _)
      · refine hbsk ?_
        rw [hbn, hf, hap]
        rfl
    · exact handleMigration_ok_preserves env ledger a.name (sortByName migs)
        ledger (Migrate env migs ledger).ledger []
        (fun b hb hbn => by rw [hbn, hf, hap]; rfl) hhandle
  · intro hf hap
    rw [hexec]
    exact handleMigration_ok_executes env ledger (sortByName migs) ledger []
      (Migrate env migs ledger).ledger a hhandle (mem_sortByName.mpr ha)
      (by rw [hf, hap]; simp)

/-- Witness for C8: artifact `A` has an applied record and is skipped;
the run succeeds with record `B` present as applied=false. -/
theorem migrate_skip_and_reexecute_witness :
    ((findMigrationByName
        [⟨"A", hashFile [1], true⟩, ⟨"B", hashFile [2], false⟩]
        (⟨"A", [1]⟩ : Artifact).name).2 = true →
      (findMigrationByName
        [⟨"A", hashFile [1], true⟩, ⟨"B", hashFile [2], false⟩]
        (⟨"A", [1]⟩ : Artifact).name).1.IsApplied = true →
      (⟨"A", [1]⟩ : Artifact).name ∉
        (Migrate envOk [⟨"A", [1]⟩, ⟨"B", [2]⟩]
          [⟨"A", hashFile [1], true⟩, ⟨"B", hashFile [2], false⟩]).executed ∧
        findMigrationByName
          (Migrate envOk [⟨"A", [1]⟩, ⟨"B", [2]⟩]
            [⟨"A", hashFile [1], true⟩, ⟨"B", hashFile [2], false⟩]).ledger
          (⟨"A", [1]⟩ : Artifact).name =
        findMigrationByName
          [⟨"A", hashFile [1], true⟩, ⟨"B", hashFile [2], false⟩]
          (⟨"A", [1]⟩ : Artifact).name) ∧
    ((findMigrationByName
        [⟨"A", hashFile [1], true⟩, ⟨"B", hashFile [2], false⟩]
        (⟨"A", [1]⟩ : Artifact).name).2 = true →
      (findMigrationByName
        [⟨"A", hashFile [1], true⟩, ⟨"B", hashFile [2], false⟩]
        (⟨"A", [1]⟩ : Artifact).name).1.IsApplied = false →
      (⟨"A", [1]⟩ : Artifact).name ∈
        (Migrate envOk [⟨"A", [1]⟩, ⟨"B", [2]⟩]
          [⟨"A", hashFile [1], true⟩, ⟨"B", hashFile [2], false⟩]).executed) :=
  migrate_skip_and_reexecute envOk [⟨"A", [1]⟩, ⟨"B", [2]⟩]
    [⟨"A", hashFile [1], true⟩, ⟨"B", hashFile [2], false⟩]
    ⟨"A", [1]⟩ (by decide) (by decide)

end GoMigrate
